import Mathlib

/-!
Shallow embedding of the tagged arbitrary-precision integer runtime
(mypyc `lib-rt`: `int_ops.c` and `pythonsupport.c`).

The runtime works over a hybrid integer representation (`CPyTagged`): a
machine word whose low bit is a tag.  Tag 0 means the remaining bits hold
the value shifted left by one (inline/"short" form); tag 1 means the word
is a pointer to a heap `PyLongObject` ("long"/boxed form).  We embed the
two cases as an inductive type, keep machine integers as `Int`/`Nat` with
explicit `% 2 ^ 64` where the C code relies on `size_t` wraparound, and
model each C function structurally on its source.

External collaborators (the CPython host runtime: `PyNumber_*`,
`PyObject_RichCompareBool`, ...) are represented by a `Host` record of
option-returning operations (`none` = the call returned an error /
`NULL`); `pyHost` instantiates it with the documented Python semantics of
those operations.
-/

namespace TaggedInt

/-- Number of bits per big-integer digit (`PyLong_SHIFT` for 64-bit builds). -/
def PyLong_SHIFT : Nat := 30

/-- Digit base, `2 ^ PyLong_SHIFT`. -/
def PyLong_BASE : Nat := 2 ^ PyLong_SHIFT

/-- Low-digit mask (`PyLong_MASK`). -/
def PyLong_MASK : Nat := 2 ^ PyLong_SHIFT - 1

/-- Largest `Py_ssize_t` value (64-bit platform). -/
def SSIZE_MAX : Int := 2 ^ 63 - 1

/-- Smallest `Py_ssize_t` value (64-bit platform). -/
def SSIZE_MIN : Int := -(2 ^ 63)

/-- Modelled from the spec: the inline/boxed boundary constants live in
`CPy.h`, which is not under `src/`.  Spec §3: `TAGGED_MAX = floor(WORD_MAX/2)`. -/
def CPY_TAGGED_MAX : Int := SSIZE_MAX / 2

/-- Modelled from the spec: spec §3, `TAGGED_MIN = -(TAGGED_MAX+1)`. -/
def CPY_TAGGED_MIN : Int := -(CPY_TAGGED_MAX + 1)

/-- Absolute value of `CPY_TAGGED_MIN` as an unsigned word (`CPY_TAGGED_ABS_MIN`). -/
def CPY_TAGGED_ABS_MIN : Nat := 2 ^ 62

/-- Numeric value of a least-significant-first digit sequence in base `2 ^ 30`. -/
def digitsVal : List Nat → Nat
  | [] => 0
  | d :: ds => d + PyLong_BASE * digitsVal ds

theorem digitsVal_nil : digitsVal [] = 0 := rfl

theorem digitsVal_cons (d : Nat) (ds : List Nat) :
    digitsVal (d :: ds) = d + PyLong_BASE * digitsVal ds := rfl

theorem digitsVal_append (l₁ l₂ : List Nat) :
    digitsVal (l₁ ++ l₂) = digitsVal l₁ + PyLong_BASE ^ l₁.length * digitsVal l₂ := by
  induction l₁ with
  | nil => simp [digitsVal]
  | cons d ds ih =>
      simp only [List.cons_append, digitsVal_cons, ih, List.length_cons, pow_succ]
      ring

theorem digitsVal_replicate_zero (n : Nat) : digitsVal (List.replicate n 0) = 0 := by
  induction n with
  | zero => rfl
  | succ k ih => simp [List.replicate_succ, digitsVal_cons, ih]

/-- A heap big-integer object: a sign flag plus a least-significant-first
digit array (CPython `PyLongObject`, sign-magnitude). -/
structure PyLongObject where
  negative : Bool
  digits : List Nat
deriving DecidableEq, Repr

/-- Numeric value of a `PyLongObject`. -/
def PyLongObject.value (o : PyLongObject) : Int :=
  if o.negative then -(digitsVal o.digits : Int) else (digitsVal o.digits : Int)

/-- Canonical-form invariant: every digit is below the base, there is no
trailing (most-significant) zero digit, and a negative sign implies a
non-empty digit sequence (zero is stored non-negative with no digits). -/
def PyLongObject.WF (o : PyLongObject) : Prop :=
  (∀ d ∈ o.digits, d < PyLong_BASE) ∧ o.digits.getLast? ≠ some 0 ∧
    (o.negative = true → o.digits ≠ [])

/-- Canonical digit decomposition of a natural number, least significant first. -/
def natToDigits (n : Nat) : List Nat :=
  if h : n = 0 then [] else n % PyLong_BASE :: natToDigits (n / PyLong_BASE)
termination_by n
decreasing_by
  exact Nat.div_lt_self (Nat.pos_of_ne_zero h) (by norm_num [PyLong_BASE, PyLong_SHIFT])

theorem digitsVal_natToDigits (n : Nat) : digitsVal (natToDigits n) = n := by
  induction n using Nat.strong_induction_on with
  | _ n ih =>
      rw [natToDigits]
      by_cases h : n = 0
      · simp [h, digitsVal]
      · have hlt : n / PyLong_BASE < n :=
          Nat.div_lt_self (Nat.pos_of_ne_zero h) (by norm_num [PyLong_BASE, PyLong_SHIFT])
        simp only [h, dite_false, digitsVal_cons, ih _ hlt]
        exact Nat.mod_add_div n PyLong_BASE

theorem natToDigits_digit_lt (n : Nat) : ∀ d ∈ natToDigits n, d < PyLong_BASE := by
  induction n using Nat.strong_induction_on with
  | _ n ih =>
      rw [natToDigits]
      by_cases h : n = 0
      · simp [h]
      · have hlt : n / PyLong_BASE < n :=
          Nat.div_lt_self (Nat.pos_of_ne_zero h) (by norm_num [PyLong_BASE, PyLong_SHIFT])
        simp only [h, dite_false, List.mem_cons]
        rintro d (rfl | hd)
        · exact Nat.mod_lt _ (by norm_num [PyLong_BASE, PyLong_SHIFT])
        · exact ih _ hlt d hd

theorem natToDigits_ne_nil {n : Nat} (h : n ≠ 0) : natToDigits n ≠ [] := by
  rw [natToDigits]
  simp [h]

theorem natToDigits_getLast (n : Nat) : (natToDigits n).getLast? ≠ some 0 := by
  induction n using Nat.strong_induction_on with
  | _ n ih =>
      rw [natToDigits]
      by_cases h : n = 0
      · simp [h]
      · have hlt : n / PyLong_BASE < n :=
          Nat.div_lt_self (Nat.pos_of_ne_zero h) (by norm_num [PyLong_BASE, PyLong_SHIFT])
        simp only [h, dite_false]
        by_cases hq : n / PyLong_BASE = 0
        · have hmod : n % PyLong_BASE ≠ 0 := by
            have h2 := Nat.div_add_mod n PyLong_BASE
            rw [hq, Nat.mul_zero, Nat.zero_add] at h2
            omega
          rw [natToDigits]
          simp [hq, List.getLast?, hmod]
        · rcases List.exists_cons_of_ne_nil (natToDigits_ne_nil hq) with ⟨d, t, hdt⟩
          rw [hdt, List.getLast?_cons_cons, ← hdt]
          exact ih _ hlt

/-- Boxed object freshly built from an integer value (`PyLong_FromSsize_t`
and friends on the host side). -/
def intToPyLong (v : Int) : PyLongObject :=
  ⟨v < 0, natToDigits v.natAbs⟩

theorem intToPyLong_value (v : Int) : (intToPyLong v).value = v := by
  simp only [intToPyLong, PyLongObject.value, digitsVal_natToDigits]
  by_cases h : v < 0
  · rw [if_pos (by simpa using h)]
    omega
  · rw [if_neg (by simpa using h)]
    omega

theorem intToPyLong_WF (v : Int) : (intToPyLong v).WF := by
  refine ⟨natToDigits_digit_lt _, natToDigits_getLast _, ?_⟩
  intro hneg
  have h : v < 0 := by simpa [intToPyLong] using hneg
  have hne : v.natAbs ≠ 0 := by omega
  exact natToDigits_ne_nil hne

/-- A hybrid tagged integer (`CPyTagged`): either an inline ("short") word
whose low tag bit is 0 and whose value is the word arithmetically shifted
right by one, or a pointer (low tag bit 1) to a boxed `PyLongObject`. -/
inductive CPyTagged where
  | short (word : Int)
  | long (obj : PyLongObject)
deriving DecidableEq, Repr

/-- Low tag bit of the machine word: 0 for an inline word (which is always
even), 1 for a boxed pointer (the pointer is or-ed with `CPY_INT_TAG = 1`). -/
def CPyTagged.tagBit : CPyTagged → Nat
  | .short w => (w % 2).toNat
  | .long _ => 1

/-- Tag test `CPyTagged_CheckShort` (modelled from the spec: defined in
`CPy.h`, not under `src/`; spec §3 tag-bit convention, `is_inline`). -/
def CPyTagged_CheckShort : CPyTagged → Bool
  | .short _ => true
  | .long _ => false

/-- Tag test `CPyTagged_CheckLong` (modelled from the spec: defined in
`CPy.h`, not under `src/`; spec §3 tag-bit convention, `is_boxed`). -/
def CPyTagged_CheckLong (t : CPyTagged) : Bool :=
  !CPyTagged_CheckShort t

/-- Decoding of an inline word, `CPyTagged_ShortAsSsize_t`: arithmetic
shift right by one (modelled from the spec: defined in `CPy.h`, not under
`src/`; spec §3 "the stored word arithmetically shifted right by one"). -/
def CPyTagged_ShortAsSsize_t (word : Int) : Int :=
  word >>> (1 : Nat)

/-- Numeric value denoted by a tagged word. -/
def CPyTagged.val : CPyTagged → Int
  | .short w => CPyTagged_ShortAsSsize_t w
  | .long o => o.value

/-- Representation invariant: an inline word is even (tag bit clear) and in
`Py_ssize_t` range; a boxed object is in canonical form. -/
def CPyTagged.WF : CPyTagged → Prop
  | .short w => w % 2 = 0 ∧ SSIZE_MIN ≤ w ∧ w ≤ SSIZE_MAX
  | .long o => o.WF

/-- Range test `CPyTagged_TooBig` (modelled from the spec: defined in
`CPy.h`, not under `src/`; spec §4.1: true iff the value doubled overflows
the word, i.e. iff the value lies outside `[TAGGED_MIN, TAGGED_MAX]`). -/
def CPyTagged_TooBig (value : Int) : Bool :=
  value > CPY_TAGGED_MAX || value < CPY_TAGGED_MIN

/-- `CPyTagged_FromSsize_t` (int_ops.c): box the value when it is too big
for the inline form, else store it shifted left by one with tag bit 0. -/
def CPyTagged_FromSsize_t (value : Int) : CPyTagged :=
  if CPyTagged_TooBig value then .long (intToPyLong value)
  else .short (value * 2)

/-- Re-encoding of a result object, `CPyTagged_StealFromObject` (modelled
from the spec: defined in `CPy.h`, not under `src/`; spec §4.3 "re-encode
the result back into inline form if it now fits"). -/
def CPyTagged_StealFromObject (o : PyLongObject) : CPyTagged :=
  if CPY_TAGGED_MIN ≤ o.value ∧ o.value ≤ CPY_TAGGED_MAX then .short (o.value * 2)
  else .long o

/-- Materialization `CPyTagged_AsObject` (int_ops.c): a boxed operand is
borrowed directly, an inline operand gets a fresh object of its value. -/
def CPyTagged_AsObject : CPyTagged → PyLongObject
  | .short w => intToPyLong (CPyTagged_ShortAsSsize_t w)
  | .long o => o

/-- Host (CPython) generic numeric operations consumed by the slow paths.
Each returns `none` when the underlying C call returns `NULL` (or `-1` for
the comparisons), i.e. when the host reports a failure. -/
structure Host where
  add : Int → Int → Option Int
  subtract : Int → Int → Option Int
  multiply : Int → Int → Option Int
  negate : Int → Option Int
  invert : Int → Option Int
  floorDivide : Int → Int → Option Int
  remainder : Int → Int → Option Int
  rshift : Int → Int → Option Int
  lshift : Int → Int → Option Int
  bitAnd : Int → Int → Option Int
  bitOr : Int → Int → Option Int
  bitXor : Int → Int → Option Int
  richCompareEq : Int → Int → Option Bool
  richCompareLt : Int → Int → Option Bool

/-- Modelled from the spec: the concrete host collaborator (spec §6), the
CPython generic numeric operations with Python integer semantics.  Division
and remainder by zero fail (ZeroDivisionError), a negative shift count
fails (ValueError); every other operation succeeds. -/
def pyHost : Host where
  add a b := some (a + b)
  subtract a b := some (a - b)
  multiply a b := some (a * b)
  negate a := some (-a)
  invert a := some (-(a + 1))
  floorDivide a b := if b = 0 then none else some (a.fdiv b)
  remainder a b := if b = 0 then none else some (a.fmod b)
  rshift a b := if b < 0 then none else some (a >>> b.toNat)
  lshift a b := if b < 0 then none else some (a * 2 ^ b.toNat)
  bitAnd a b := some (Int.land a b)
  bitOr a b := some (Int.lor a b)
  bitXor a b := some (Int.xor a b)
  richCompareEq a b := some (a == b)
  richCompareLt a b := some (a < b)

/-- Outcome of a slow-path operation returning a tagged value:
a proper result, the reserved sentinel `CPY_INT_TAG` (host error left
pending for the caller to check), or a fatal abort
(`CPyError_OutOfMemory`, which never returns). -/
inductive SlowPathOutcome where
  | val (t : CPyTagged)
  | sentinel
  | fatal
deriving DecidableEq, Repr

/-- `CPyTagged_Negate_` (int_ops.c): delegate to `PyNumber_Negative`; a
`NULL` result aborts via `CPyError_OutOfMemory`. -/
def CPyTagged_Negate_ (h : Host) (num : CPyTagged) : SlowPathOutcome :=
  match h.negate (CPyTagged_AsObject num).value with
  | none => .fatal
  | some v => .val (CPyTagged_StealFromObject (intToPyLong v))

/-- `CPyTagged_Add_` (int_ops.c): delegate to `PyNumber_Add`; a `NULL`
result aborts via `CPyError_OutOfMemory`. -/
def CPyTagged_Add_ (h : Host) (left right : CPyTagged) : SlowPathOutcome :=
  match h.add (CPyTagged_AsObject left).value (CPyTagged_AsObject right).value with
  | none => .fatal
  | some v => .val (CPyTagged_StealFromObject (intToPyLong v))

/-- `CPyTagged_Subtract_` (int_ops.c): delegate to `PyNumber_Subtract`; a
`NULL` result aborts via `CPyError_OutOfMemory`. -/
def CPyTagged_Subtract_ (h : Host) (left right : CPyTagged) : SlowPathOutcome :=
  match h.subtract (CPyTagged_AsObject left).value (CPyTagged_AsObject right).value with
  | none => .fatal
  | some v => .val (CPyTagged_StealFromObject (intToPyLong v))

/-- `CPyTagged_Multiply_` (int_ops.c): delegate to `PyNumber_Multiply`; a
`NULL` result aborts via `CPyError_OutOfMemory`. -/
def CPyTagged_Multiply_ (h : Host) (left right : CPyTagged) : SlowPathOutcome :=
  match h.multiply (CPyTagged_AsObject left).value (CPyTagged_AsObject right).value with
  | none => .fatal
  | some v => .val (CPyTagged_StealFromObject (intToPyLong v))

/-- `CPyTagged_FloorDivide_` (int_ops.c): delegate to
`PyNumber_FloorDivide`; exceptions are handled honestly (it could be a
`ZeroDivisionError`), so a `NULL` result returns the `CPY_INT_TAG`
sentinel instead of aborting. -/
def CPyTagged_FloorDivide_ (h : Host) (left right : CPyTagged) : SlowPathOutcome :=
  match h.floorDivide (CPyTagged_AsObject left).value (CPyTagged_AsObject right).value with
  | none => .sentinel
  | some v => .val (CPyTagged_StealFromObject (intToPyLong v))

/-- `CPyTagged_Remainder_` (int_ops.c): delegate to `PyNumber_Remainder`;
a `NULL` result returns the `CPY_INT_TAG` sentinel. -/
def CPyTagged_Remainder_ (h : Host) (left right : CPyTagged) : SlowPathOutcome :=
  match h.remainder (CPyTagged_AsObject left).value (CPyTagged_AsObject right).value with
  | none => .sentinel
  | some v => .val (CPyTagged_StealFromObject (intToPyLong v))

/-- `CPyTagged_Invert_` (int_ops.c): delegate to `PyNumber_Invert`; a
`NULL` result aborts via `CPyError_OutOfMemory`. -/
def CPyTagged_Invert_ (h : Host) (num : CPyTagged) : SlowPathOutcome :=
  match h.invert (CPyTagged_AsObject num).value with
  | none => .fatal
  | some v => .val (CPyTagged_StealFromObject (intToPyLong v))

/-- `CPyTagged_Rshift_` (int_ops.c): delegate to `PyNumber_Rshift`; a
`NULL` result (possibly a negative shift count) returns the `CPY_INT_TAG`
sentinel. -/
def CPyTagged_Rshift_ (h : Host) (left right : CPyTagged) : SlowPathOutcome :=
  match h.rshift (CPyTagged_AsObject left).value (CPyTagged_AsObject right).value with
  | none => .sentinel
  | some v => .val (CPyTagged_StealFromObject (intToPyLong v))

/-- `CPyTagged_Lshift_` (int_ops.c): delegate to `PyNumber_Lshift`; a
`NULL` result (possibly an out-of-range shift count) returns the
`CPY_INT_TAG` sentinel. -/
def CPyTagged_Lshift_ (h : Host) (left right : CPyTagged) : SlowPathOutcome :=
  match h.lshift (CPyTagged_AsObject left).value (CPyTagged_AsObject right).value with
  | none => .sentinel
  | some v => .val (CPyTagged_StealFromObject (intToPyLong v))

/-- `CPyTagged_IsEq_` (int_ops.c): if the right operand is short, the
result is `false` without materializing anything; otherwise both operands
are materialized and compared with `PyObject_RichCompareBool(.., Py_EQ)`.
`none` models the `-1` comparison failure, which aborts. -/
def CPyTagged_IsEq_ (h : Host) (left right : CPyTagged) : Option Bool :=
  if CPyTagged_CheckShort right then some false
  else
    match h.richCompareEq (CPyTagged_AsObject left).value (CPyTagged_AsObject right).value with
    | none => none
    | some b => some b

/-- `CPyTagged_IsLt_` (int_ops.c): materialize both operands and compare
with `PyObject_RichCompareBool(.., Py_LT)`. -/
def CPyTagged_IsLt_ (h : Host) (left right : CPyTagged) : Option Bool :=
  match h.richCompareLt (CPyTagged_AsObject left).value (CPyTagged_AsObject right).value with
  | none => none
  | some b => some b

/-- `GenericBitwiseOp` (int_ops.c): bitwise `'&'`, `'|'` or `'^'` through
the generic host API; a `NULL` result aborts via `CPyError_OutOfMemory`. -/
def GenericBitwiseOp (h : Host) (a b : CPyTagged) (op : Char) : SlowPathOutcome :=
  let av := (CPyTagged_AsObject a).value
  let bv := (CPyTagged_AsObject b).value
  let r := if op = '&' then h.bitAnd av bv
           else if op = '|' then h.bitOr av bv
           else h.bitXor av bv
  match r with
  | none => .fatal
  | some v => .val (CPyTagged_StealFromObject (intToPyLong v))

/-- Digit decomposition of a short operand's magnitude into the caller's
scratch buffer, as performed inside `GetIntDigits` (int_ops.c): at most
three base-`2^30` digits. -/
def shortToDigits (v : Nat) : List Nat :=
  let b0 := v &&& PyLong_MASK
  if v > PyLong_MASK then
    let v1 := v >>> PyLong_SHIFT
    let b1 := v1 &&& PyLong_MASK
    if v1 > PyLong_MASK then [b0, b1, v1 >>> PyLong_SHIFT]
    else [b0, b1]
  else [b0]

/-- `GetIntDigits` (int_ops.c): the signed digit count (negative when the
integer is negative) together with the digit sequence — decomposed into a
scratch buffer for a short operand, or the boxed object's own digits. -/
def GetIntDigits : CPyTagged → Int × List Nat
  | .short w =>
      let v := CPyTagged_ShortAsSsize_t w
      let ds := shortToDigits v.natAbs
      (if v < 0 then -(ds.length : Int) else (ds.length : Int), ds)
  | .long o =>
      (if o.negative then -(o.digits.length : Int) else (o.digits.length : Int), o.digits)

/-- `CPyLong_NormalizeUnsigned` (int_ops.c): decrement the digit count
while the most significant digit is zero. -/
def CPyLong_NormalizeUnsigned (ds : List Nat) : List Nat :=
  (ds.reverse.dropWhile (· == 0)).reverse

/-- Digit loop of `CPyTagged_BitwiseLongOp_` (int_ops.c), after the
operands have been swapped so that `ad` is no longer than `bd`: combine
digit-by-digit up to the shorter length; for `'|'` and `'^'` copy the
longer operand's remaining digits (for `'&'` the result length is bounded
by the shorter operand). -/
def bitwiseDigitLoop (op : Char) (ad bd : List Nat) : List Nat :=
  if op = '&' then List.zipWith (fun x y => x &&& y) ad bd
  else if op = '|' then List.zipWith (fun x y => x ||| y) ad bd ++ bd.drop ad.length
  else List.zipWith (fun x y => x ^^^ y) ad bd ++ bd.drop ad.length

/-- `CPyTagged_BitwiseLongOp_` (int_ops.c): bitwise `'&'`/`'|'`/`'^'` for
at least one long operand, operating directly on digit arrays.  A negative
operand falls back to `GenericBitwiseOp`; otherwise the operands are
swapped so the shorter digit sequence is processed first, the digit loop
runs, the result is normalized and re-encoded. -/
def CPyTagged_BitwiseLongOp_ (h : Host) (a b : CPyTagged) (op : Char) : SlowPathOutcome :=
  let pa := GetIntDigits a
  let pb := GetIntDigits b
  if pa.1 < 0 ∨ pb.1 < 0 then GenericBitwiseOp h a b op
  else
    let ad := if pa.1 > pb.1 then pb.2 else pa.2
    let bd := if pa.1 > pb.1 then pa.2 else pb.2
    .val (CPyTagged_StealFromObject
      ⟨false, CPyLong_NormalizeUnsigned (bitwiseDigitLoop op ad bd)⟩)

/-- Result of `CPyTagged_TrueDivide` (int_ops.c): the fast pure-arithmetic
path divides the two untagged words as doubles; the boxed path converts the
host's `PyNumber_TrueDivide` result with `PyFloat_AsDouble`; `floatErr` is
the reserved `CPY_FLOAT_ERROR` sentinel with the host error state set. -/
inductive TrueDivResult where
  | fastPath (xval yval : Int)
  | hostPath (xval yval : Int)
  | floatErr
deriving DecidableEq, Repr

/-- Raw-word zero test `y == 0` of `CPyTagged_TrueDivide`: only an inline
zero has the all-zero machine word (a boxed pointer has tag bit 1 set). -/
def CPyTagged.isZeroWord : CPyTagged → Bool
  | .short w => w == 0
  | .long _ => false

/-- `CPyTagged_TrueDivide` (int_ops.c): an inline zero divisor is detected
up front (ZeroDivisionError, `CPY_FLOAT_ERROR` sentinel); two short
operands take the fast path, dividing the words shifted right by one;
otherwise the boxed host path runs (failing there — e.g. a boxed zero
divisor — also yields the float error sentinel). -/
def CPyTagged_TrueDivide (x y : CPyTagged) : TrueDivResult :=
  if y.isZeroWord then .floatErr
  else if ¬(CPyTagged_CheckLong x) ∧ ¬(CPyTagged_CheckLong y) then
    .fastPath x.val y.val
  else if y.val = 0 then .floatErr
  else .hostPath x.val y.val

/-- Host-visible error conditions signalled through `PyErr_SetString`
together with the width error sentinel `CPY_LL_INT_ERROR`. -/
inductive PyErr where
  | zeroDivision
  | overflowErr
deriving DecidableEq, Repr

/-- Width-parameterized body shared by `CPyInt64_Divide`, `CPyInt32_Divide`
and `CPyInt16_Divide` (int_ops.c, three textual copies differing only in
the width minimum): zero divisor and `MIN / -1` signal errors; otherwise
the truncating quotient is adjusted for Python (floor) semantics. -/
def fixedWidthDivide (wmin : Int) (x y : Int) : Except PyErr Int :=
  if y = 0 then .error .zeroDivision
  else if y = -1 ∧ x = wmin then .error .overflowErr
  else
    let d := x.tdiv y
    if (¬((x < 0) ↔ (y < 0))) ∧ d * y ≠ x then .ok (d - 1) else .ok d

/-- Width-parameterized body shared by `CPyInt64_Remainder`,
`CPyInt32_Remainder` and `CPyInt16_Remainder` (int_ops.c): zero divisor
signals an error; `MIN % -1` yields 0 (explicit special case avoiding a
hardware trap); otherwise the truncating remainder is adjusted for Python
(floor) semantics. -/
def fixedWidthRemainder (wmin : Int) (x y : Int) : Except PyErr Int :=
  if y = 0 then .error .zeroDivision
  else if y = -1 ∧ x = wmin then .ok 0
  else
    let d := x.tmod y
    if (¬((x < 0) ↔ (y < 0))) ∧ d ≠ 0 then .ok (d + y) else .ok d

/-- `CPyInt64_Divide` (int_ops.c). -/
def CPyInt64_Divide : Int → Int → Except PyErr Int := fixedWidthDivide (-(2 ^ 63))

/-- `CPyInt64_Remainder` (int_ops.c). -/
def CPyInt64_Remainder : Int → Int → Except PyErr Int := fixedWidthRemainder (-(2 ^ 63))

/-- `CPyInt32_Divide` (int_ops.c). -/
def CPyInt32_Divide : Int → Int → Except PyErr Int := fixedWidthDivide (-(2 ^ 31))

/-- `CPyInt32_Remainder` (int_ops.c). -/
def CPyInt32_Remainder : Int → Int → Except PyErr Int := fixedWidthRemainder (-(2 ^ 31))

/-- `CPyInt16_Divide` (int_ops.c). -/
def CPyInt16_Divide : Int → Int → Except PyErr Int := fixedWidthDivide (-(2 ^ 15))

/-- `CPyInt16_Remainder` (int_ops.c). -/
def CPyInt16_Remainder : Int → Int → Except PyErr Int := fixedWidthRemainder (-(2 ^ 15))

/-- Accumulation loop of `CPyLong_AsSsize_tAndOverflow_`
(pythonsupport.c): fold the digits most-significant first into a `size_t`
accumulator (`% 2 ^ 64` models the unsigned wraparound of
`x = (x << PyLong_SHIFT) + digit`), aborting with `none` the instant a
shift-and-add step fails the `(x >> PyLong_SHIFT) != prev` growth check. -/
def accumDigits : List Nat → Nat → Option Nat
  | [], x => some x
  | d :: rest, x =>
      if ((x * 2 ^ PyLong_SHIFT + d) % 2 ^ 64) >>> PyLong_SHIFT ≠ x then none
      else accumDigits rest ((x * 2 ^ PyLong_SHIFT + d) % 2 ^ 64)

/-- `CPyLong_AsSsize_tAndOverflow_` (pythonsupport.c): exact overflow-safe
conversion of a boxed object to `Py_ssize_t`, returned as
(result, overflow flag).  On digit overflow, or a magnitude beyond the
accepted range, the result stays at the `-1` sentinel and the overflow
flag carries the operand's sign. -/
def CPyLong_AsSsize_tAndOverflow_ (v : PyLongObject) : Int × Int :=
  match accumDigits v.digits.reverse 0 with
  | none => (-1, if v.negative then -1 else 1)
  | some x =>
      if x ≤ CPY_TAGGED_MAX.toNat then ((x : Int) * (if v.negative then -1 else 1), 0)
      else if (if v.negative then (-1 : Int) else 1) < 0 ∧ x = CPY_TAGGED_ABS_MIN then
        (CPY_TAGGED_MIN, 0)
      else (-1, if v.negative then -1 else 1)

/-! ### Basic representation lemmas -/

theorem CPY_TAGGED_MAX_eq : CPY_TAGGED_MAX = 2 ^ 62 - 1 := by decide

theorem CPY_TAGGED_MIN_eq : CPY_TAGGED_MIN = -(2 ^ 62) := by decide

theorem shortAsSsize_decode (n : Int) : CPyTagged_ShortAsSsize_t (n * 2) = n := by
  rw [CPyTagged_ShortAsSsize_t, Int.shiftRight_eq_div_pow]
  norm_num

theorem steal_val (o : PyLongObject) : (CPyTagged_StealFromObject o).val = o.value := by
  rw [CPyTagged_StealFromObject]
  split
  · exact shortAsSsize_decode o.value
  · rfl

theorem asObject_value (t : CPyTagged) : (CPyTagged_AsObject t).value = t.val := by
  cases t with
  | short w => exact intToPyLong_value _
  | long o => rfl

/-! ### Claim C1 -/

/-- Claim C1: for every native integer `n` in `[TAGGED_MIN, TAGGED_MAX]`,
`CPyTagged_FromSsize_t n` produces an inline value (tag bit 0) that
decodes back to exactly `n`; for every `n` outside that range — within the
native word — it produces a boxed value (tag bit 1).  In particular at the
boundaries: `TAGGED_MAX` and `TAGGED_MIN` stay inline, `TAGGED_MAX + 1`
is boxed. -/
theorem claim_C1_from_native_roundtrip (n : Int)
    (hlo : SSIZE_MIN ≤ n) (hhi : n ≤ SSIZE_MAX) :
    (CPY_TAGGED_MIN ≤ n ∧ n ≤ CPY_TAGGED_MAX →
      (CPyTagged_FromSsize_t n).tagBit = 0 ∧ (CPyTagged_FromSsize_t n).val = n) ∧
    (n < CPY_TAGGED_MIN ∨ CPY_TAGGED_MAX < n →
      (CPyTagged_FromSsize_t n).tagBit = 1) := by
  constructor
  · rintro ⟨h1, h2⟩
    have hbig : CPyTagged_TooBig n = false := by
      rw [CPyTagged_TooBig]
      simp only [Bool.or_eq_false_iff, decide_eq_false_iff_not]
      omega
    rw [CPyTagged_FromSsize_t, hbig]
    simp only [Bool.false_eq_true, if_false]
    refine ⟨?_, shortAsSsize_decode n⟩
    rw [CPyTagged.tagBit]
    have : n * 2 % 2 = 0 := Int.mul_emod_left n 2
    omega
  · intro h
    have hbig : CPyTagged_TooBig n = true := by
      rw [CPyTagged_TooBig]
      simp only [Bool.or_eq_true, decide_eq_true_eq]
      omega
    rw [CPyTagged_FromSsize_t, hbig, if_pos rfl]
    rfl

/-- Concrete instances of C1: `TAGGED_MAX = 2^62 - 1` round-trips inline,
and `TAGGED_MAX + 1 = 2^62` becomes boxed. -/
theorem claim_C1_witness :
    ((CPyTagged_FromSsize_t (2 ^ 62 - 1)).tagBit = 0 ∧
      (CPyTagged_FromSsize_t (2 ^ 62 - 1)).val = 2 ^ 62 - 1) ∧
    (CPyTagged_FromSsize_t (2 ^ 62)).tagBit = 1 :=
  ⟨(claim_C1_from_native_roundtrip (2 ^ 62 - 1) (by decide) (by decide)).1
      ⟨by decide, by decide⟩,
    (claim_C1_from_native_roundtrip (2 ^ 62) (by decide) (by decide)).2
      (Or.inr (by decide))⟩

/-! ### Claims C2 and C3: fixed-width floor division and remainder -/

theorem neg_tmod_eq (a b : Int) : (-a).tmod b = -(a.tmod b) := by
  rw [Int.tmod_def, Int.tmod_def, Int.neg_tdiv]
  ring

theorem tmod_range_of_pos (x : Int) {y : Int} (hy : 0 < y) :
    -y < x.tmod y ∧ x.tmod y < y ∧ (0 ≤ x → 0 ≤ x.tmod y) ∧ (x ≤ 0 → x.tmod y ≤ 0) := by
  rcases le_or_lt 0 x with hx | hx
  · have h1 : 0 ≤ x.tmod y := Int.tmod_nonneg y hx
    have h2 : x.tmod y < y := Int.tmod_lt_of_pos x hy
    refine ⟨by omega, h2, fun _ => h1, fun hx0 => ?_⟩
    have : x = 0 := le_antisymm hx0 hx
    simp [this, Int.zero_tmod]
  · have hxn : 0 ≤ -x := by omega
    have h1 : 0 ≤ (-x).tmod y := Int.tmod_nonneg y hxn
    have h2 : (-x).tmod y < y := Int.tmod_lt_of_pos (-x) hy
    rw [neg_tmod_eq] at h1 h2
    exact ⟨by omega, by omega, fun h => absurd h (by omega), fun _ => by omega⟩

theorem tmod_range (x : Int) {y : Int} (hy : y ≠ 0) :
    -|y| < x.tmod y ∧ x.tmod y < |y| ∧ (0 ≤ x → 0 ≤ x.tmod y) ∧ (x ≤ 0 → x.tmod y ≤ 0) := by
  rcases lt_or_gt_of_ne hy with hneg | hpos
  · have heq : x.tmod y = x.tmod (-y) := by
      have h := Int.tmod_neg x (-y)
      rwa [neg_neg] at h
    have h := tmod_range_of_pos x (y := -y) (by omega)
    rw [← heq] at h
    rw [abs_of_neg hneg]
    exact h
  · rw [abs_of_pos hpos]
    exact tmod_range_of_pos x hpos

/-- Claim C2: for each width `W ∈ {16, 32, 64}` (encoded by its minimum
`wmin = -2^(W-1)`) and all in-range `x, y` with `y ≠ 0` and not the
`MIN / -1` edge case, the width divide/remainder pair implements floor
semantics: the quotient and remainder reconstruct `x`, the remainder lies
in `[0, y)` for positive `y` and in `(y, 0]` for negative `y` (which pins
the quotient as the one rounded toward negative infinity), and the
remainder's sign is 0 or the divisor's. -/
theorem claim_C2_floor_semantics (wmin x y : Int)
    (hw : wmin = -(2 ^ 15) ∨ wmin = -(2 ^ 31) ∨ wmin = -(2 ^ 63))
    (hx1 : wmin ≤ x) (hx2 : x < -wmin) (hy1 : wmin ≤ y) (hy2 : y < -wmin)
    (hy0 : y ≠ 0) (hedge : ¬(y = -1 ∧ x = wmin)) :
    ∃ d r, fixedWidthDivide wmin x y = .ok d ∧ fixedWidthRemainder wmin x y = .ok r ∧
      d * y + r = x ∧
      (0 < y → 0 ≤ r ∧ r < y) ∧ (y < 0 → y < r ∧ r ≤ 0) ∧
      (r = 0 ∨ Int.sign r = Int.sign y) := by
  have hsum : y * x.tdiv y + x.tmod y = x := Int.tdiv_add_tmod x y
  obtain ⟨hb1, hb2, hb3, hb4⟩ := tmod_range x hy0
  simp only [fixedWidthDivide, fixedWidthRemainder, if_neg hy0, if_neg hedge]
  by_cases hs : (x < 0) ↔ (y < 0)
  · -- operands have the same sign (or x = 0): no adjustment happens
    have hcd : ¬((¬((x < 0) ↔ (y < 0))) ∧ x.tdiv y * y ≠ x) := by
      intro h
      exact h.1 hs
    have hcr : ¬((¬((x < 0) ↔ (y < 0))) ∧ x.tmod y ≠ 0) := by
      intro h
      exact h.1 hs
    rw [if_neg hcd, if_neg hcr]
    refine ⟨x.tdiv y, x.tmod y, rfl, rfl, by linarith, ?_, ?_, ?_⟩
    · intro hyp
      have hx0 : 0 ≤ x := by
        by_contra hc
        have := hs.mp (by omega)
        omega
      exact ⟨hb3 hx0, by rw [abs_of_pos hyp] at hb2; exact hb2⟩
    · intro hyn
      have hx0 : x ≤ 0 := by
        have := hs.mpr hyn
        omega
      exact ⟨by rw [abs_of_neg hyn] at hb1; omega, hb4 hx0⟩
    · rcases eq_or_ne (x.tmod y) 0 with h | h
      · exact Or.inl h
      · right
        rcases lt_or_gt_of_ne hy0 with hyn | hyp
        · have hx0 : x ≤ 0 := by
            have := hs.mpr hyn
            omega
          have : x.tmod y < 0 := lt_of_le_of_ne (hb4 hx0) h
          rw [Int.sign_eq_neg_one_iff_neg.mpr this, Int.sign_eq_neg_one_iff_neg.mpr hyn]
        · have hx0 : 0 ≤ x := by
            by_contra hc
            have := hs.mp (by omega)
            omega
          have : 0 < x.tmod y := lt_of_le_of_ne (hb3 hx0) (Ne.symm h)
          rw [Int.sign_eq_one_iff_pos.mpr this, Int.sign_eq_one_iff_pos.mpr hyp]
  · by_cases hz : x.tmod y = 0
    · -- signs differ but the division is exact: no adjustment
      have hcd : ¬((¬((x < 0) ↔ (y < 0))) ∧ x.tdiv y * y ≠ x) := by
        rintro ⟨-, hne⟩
        apply hne
        rw [mul_comm]
        omega
      have hcr : ¬((¬((x < 0) ↔ (y < 0))) ∧ x.tmod y ≠ 0) := by
        rintro ⟨-, hne⟩
        exact hne hz
      rw [if_neg hcd, if_neg hcr]
      exact ⟨x.tdiv y, x.tmod y, rfl, rfl, by linarith, fun _ => by omega,
        fun _ => by omega, Or.inl hz⟩
    · -- signs differ and remainder non-zero: quotient decremented, remainder += y
      have hcd : (¬((x < 0) ↔ (y < 0))) ∧ x.tdiv y * y ≠ x := by
        refine ⟨hs, fun he => hz ?_⟩
        rw [mul_comm] at he
        omega
      have hcr : (¬((x < 0) ↔ (y < 0))) ∧ x.tmod y ≠ 0 := ⟨hs, hz⟩
      rw [if_pos hcd, if_pos hcr]
      refine ⟨x.tdiv y - 1, x.tmod y + y, rfl, rfl, by linarith, ?_, ?_, ?_⟩
      · intro hyp
        -- y > 0 and signs differ, so x < 0 and the remainder was in (-y, 0)
        have hx0 : x < 0 := by
          by_contra hc
          exact hs ⟨fun hh => absurd hh hc, fun hh => absurd hh (by omega)⟩
        have := hb4 (by omega)
        rw [abs_of_pos hyp] at hb1
        omega
      · intro hyn
        have hx0 : 0 ≤ x := by
          by_contra hc
          exact hs ⟨fun _ => hyn, fun _ => by omega⟩
        have := hb3 hx0
        rw [abs_of_neg hyn] at hb2
        omega
      · right
        rcases lt_or_gt_of_ne hy0 with hyn | hyp
        · have hx0 : 0 ≤ x := by
            by_contra hc
            exact hs ⟨fun _ => hyn, fun _ => by omega⟩
          have h3 := hb3 hx0
          rw [abs_of_neg hyn] at hb2
          have : x.tmod y + y < 0 := by omega
          rw [Int.sign_eq_neg_one_iff_neg.mpr this, Int.sign_eq_neg_one_iff_neg.mpr hyn]
        · have hx0 : x < 0 := by
            by_contra hc
            exact hs ⟨fun hh => absurd hh hc, fun hh => absurd hh (by omega)⟩
          have h4 := hb4 (by omega)
          rw [abs_of_pos hyp] at hb1
          have : 0 < x.tmod y + y := by omega
          rw [Int.sign_eq_one_iff_pos.mpr this, Int.sign_eq_one_iff_pos.mpr hyp]

/-- Concrete instance of C2 at width 16, `x = -7`, `y = 2`:
quotient `-4`, remainder `1`. -/
theorem claim_C2_witness :
    ∃ d r, fixedWidthDivide (-(2 ^ 15)) (-7) 2 = .ok d ∧
      fixedWidthRemainder (-(2 ^ 15)) (-7) 2 = .ok r ∧
      d * 2 + r = -7 ∧
      ((0:Int) < 2 → 0 ≤ r ∧ r < 2) ∧ ((2:Int) < 0 → 2 < r ∧ r ≤ 0) ∧
      (r = 0 ∨ Int.sign r = Int.sign 2) :=
  claim_C2_floor_semantics (-(2 ^ 15)) (-7) 2 (Or.inl rfl) (by decide) (by decide)
    (by decide) (by decide) (by decide) (by decide)

/-- Claim C3: at each width `W ∈ {16, 32, 64}`, dividing `WIDTH_MIN` by
`-1` signals Overflow (error result standing for the reserved
`CPY_LL_INT_ERROR` sentinel plus the pending `OverflowError`), while the
remainder of the same combination is 0 with no error signalled. -/
theorem claim_C3_min_div_minus_one :
    CPyInt16_Divide (-(2 ^ 15)) (-1) = .error .overflowErr ∧
    CPyInt16_Remainder (-(2 ^ 15)) (-1) = .ok 0 ∧
    CPyInt32_Divide (-(2 ^ 31)) (-1) = .error .overflowErr ∧
    CPyInt32_Remainder (-(2 ^ 31)) (-1) = .ok 0 ∧
    CPyInt64_Divide (-(2 ^ 63)) (-1) = .error .overflowErr ∧
    CPyInt64_Remainder (-(2 ^ 63)) (-1) = .ok 0 := by
  refine ⟨?_, ?_, ?_, ?_, ?_, ?_⟩ <;> rfl

/-! ### Claim C6: zero divisors -/

/-- Claim C6: dividing by zero never yields a numeric result, only the
reserved sentinels with the ZeroDivision condition signalled: the
floor-divide slow path returns the `CPY_INT_TAG` sentinel, the fixed-width
divide/remainder return the width error sentinel with `ZeroDivisionError`,
and `CPyTagged_TrueDivide` detects an inline zero divisor before entering
its fast path and returns the `CPY_FLOAT_ERROR` sentinel. -/
theorem claim_C6_zero_divisor (x y : CPyTagged) (xv wmin : Int) (hy : y.val = 0) :
    CPyTagged_FloorDivide_ pyHost x y = .sentinel ∧
    fixedWidthDivide wmin xv 0 = .error .zeroDivision ∧
    fixedWidthRemainder wmin xv 0 = .error .zeroDivision ∧
    CPyTagged_TrueDivide x (.short 0) = .floatErr := by
  refine ⟨?_, ?_, ?_, ?_⟩
  · rw [CPyTagged_FloorDivide_, asObject_value y, hy]
    rfl
  · rw [fixedWidthDivide, if_pos rfl]
  · rw [fixedWidthRemainder, if_pos rfl]
  · rfl

/-- Concrete instance of C6: `6 // 0`, `int64 7 / 0`, `int64 7 % 0` and
`6 / 0.0`-style true division all signal ZeroDivision sentinels. -/
theorem claim_C6_witness :
    CPyTagged_FloorDivide_ pyHost (.short 12) (.short 0) = .sentinel ∧
    fixedWidthDivide (-(2 ^ 63)) 7 0 = .error .zeroDivision ∧
    fixedWidthRemainder (-(2 ^ 63)) 7 0 = .error .zeroDivision ∧
    CPyTagged_TrueDivide (.short 12) (.short 0) = .floatErr :=
  claim_C6_zero_divisor (.short 12) (.short 0) 7 (-(2 ^ 63)) (by decide)

/-! ### Claim C7: short-circuit equality against a confirmed-long value -/

/-- Claim C7: when the left operand is a boxed value that is not
inline-representable and the right operand is inline, the slow-path
equality returns `false` for every host — i.e. without ever invoking the
host comparison or materializing the operands — and this is semantically
right: the two values are necessarily different. -/
theorem claim_C7_short_circuit_eq (h : Host) (o : PyLongObject) (w : Int)
    (hout : o.value < CPY_TAGGED_MIN ∨ CPY_TAGGED_MAX < o.value)
    (hw : (CPyTagged.short w).WF) :
    CPyTagged_IsEq_ h (.long o) (.short w) = some false ∧
    (CPyTagged.long o).val ≠ (CPyTagged.short w).val := by
  constructor
  · rfl
  · obtain ⟨-, hlo, hhi⟩ := hw
    have hval : (CPyTagged.short w).val = w / 2 := by
      rw [CPyTagged.val, CPyTagged_ShortAsSsize_t, Int.shiftRight_eq_div_pow]
      norm_num
    rw [hval]
    show (o.value : Int) ≠ w / 2
    rw [CPY_TAGGED_MIN_eq, CPY_TAGGED_MAX_eq] at hout
    rw [SSIZE_MIN] at hlo
    rw [SSIZE_MAX] at hhi
    omega

/-- Concrete instance of C7: the boxed value `2^62` (digits `[0,0,4]`) is
never equal to the inline `3`, under any host. -/
theorem claim_C7_witness :
    CPyTagged_IsEq_ pyHost (.long ⟨false, [0, 0, 4]⟩) (.short 6) = some false ∧
    (CPyTagged.long ⟨false, [0, 0, 4]⟩).val ≠ (CPyTagged.short 6).val :=
  claim_C7_short_circuit_eq pyHost ⟨false, [0, 0, 4]⟩ 6
    (Or.inr (by decide)) ⟨by decide, by decide, by decide⟩

/-! ### Claim C10: the short-circuit inspects only the right operand's tag -/

/-- Claim C10: `CPyTagged_IsEq_` returns `false` whenever the right
operand is inline, regardless of the left operand (and of the host) — so
invoked outside its intended precondition (left boxed) on two equal
inline operands it still returns `false`. -/
theorem claim_C10_right_tag_only (h : Host) (left right : CPyTagged)
    (hr : CPyTagged_CheckShort right = true) :
    CPyTagged_IsEq_ h left right = some false := by
  rw [CPyTagged_IsEq_, if_pos hr]

/-- Concrete instance of C10: two equal inline operands (`2` and `2`)
still compare unequal through the slow path. -/
theorem claim_C10_witness :
    CPyTagged_IsEq_ pyHost (.short 4) (.short 4) = some false :=
  claim_C10_right_tag_only pyHost (.short 4) (.short 4) rfl

/-! ### Claim C9: which slow paths return the sentinel on host failure -/

/-- Modelled host in which every generic operation fails, for exercising
the error-propagation policy. -/
def failHost : Host where
  add _ _ := none
  subtract _ _ := none
  multiply _ _ := none
  negate _ := none
  invert _ := none
  floorDivide _ _ := none
  remainder _ _ := none
  rshift _ _ := none
  lshift _ _ := none
  bitAnd _ _ := none
  bitOr _ _ := none
  bitXor _ _ := none
  richCompareEq _ _ := none
  richCompareLt _ _ := none

/-- Claim C9: among the slow-path operations, exactly floor-divide,
remainder, right-shift and left-shift translate a host delegate failure
into the reserved `CPY_INT_TAG` sentinel; add, subtract, multiply, negate,
invert and the generic bitwise delegate treat every host failure as fatal
and can never hand a sentinel back to the caller. -/
theorem claim_C9_sentinel_policy (h : Host) (l r n : CPyTagged) :
    (h.add (CPyTagged_AsObject l).value (CPyTagged_AsObject r).value = none →
      CPyTagged_Add_ h l r = .fatal) ∧
    (h.subtract (CPyTagged_AsObject l).value (CPyTagged_AsObject r).value = none →
      CPyTagged_Subtract_ h l r = .fatal) ∧
    (h.multiply (CPyTagged_AsObject l).value (CPyTagged_AsObject r).value = none →
      CPyTagged_Multiply_ h l r = .fatal) ∧
    (h.negate (CPyTagged_AsObject n).value = none → CPyTagged_Negate_ h n = .fatal) ∧
    (h.invert (CPyTagged_AsObject n).value = none → CPyTagged_Invert_ h n = .fatal) ∧
    (h.bitAnd (CPyTagged_AsObject l).value (CPyTagged_AsObject r).value = none →
      GenericBitwiseOp h l r '&' = .fatal) ∧
    (h.floorDivide (CPyTagged_AsObject l).value (CPyTagged_AsObject r).value = none →
      CPyTagged_FloorDivide_ h l r = .sentinel) ∧
    (h.remainder (CPyTagged_AsObject l).value (CPyTagged_AsObject r).value = none →
      CPyTagged_Remainder_ h l r = .sentinel) ∧
    (h.rshift (CPyTagged_AsObject l).value (CPyTagged_AsObject r).value = none →
      CPyTagged_Rshift_ h l r = .sentinel) ∧
    (h.lshift (CPyTagged_AsObject l).value (CPyTagged_AsObject r).value = none →
      CPyTagged_Lshift_ h l r = .sentinel) ∧
    CPyTagged_Add_ h l r ≠ .sentinel ∧
    CPyTagged_Subtract_ h l r ≠ .sentinel ∧
    CPyTagged_Multiply_ h l r ≠ .sentinel ∧
    CPyTagged_Negate_ h n ≠ .sentinel ∧
    CPyTagged_Invert_ h n ≠ .sentinel ∧
    (∀ op : Char, GenericBitwiseOp h l r op ≠ .sentinel) := by
  refine ⟨fun hf => by rw [CPyTagged_Add_, hf], fun hf => by rw [CPyTagged_Subtract_, hf],
    fun hf => by rw [CPyTagged_Multiply_, hf], fun hf => by rw [CPyTagged_Negate_, hf],
    fun hf => by rw [CPyTagged_Invert_, hf], fun hf => ?_,
    fun hf => by rw [CPyTagged_FloorDivide_, hf], fun hf => by rw [CPyTagged_Remainder_, hf],
    fun hf => by rw [CPyTagged_Rshift_, hf], fun hf => by rw [CPyTagged_Lshift_, hf],
    ?_, ?_, ?_, ?_, ?_, ?_⟩
  · simp [GenericBitwiseOp, hf]
  · cases hv : h.add (CPyTagged_AsObject l).value (CPyTagged_AsObject r).value <;>
      simp [CPyTagged_Add_, hv]
  · cases hv : h.subtract (CPyTagged_AsObject l).value (CPyTagged_AsObject r).value <;>
      simp [CPyTagged_Subtract_, hv]
  · cases hv : h.multiply (CPyTagged_AsObject l).value (CPyTagged_AsObject r).value <;>
      simp [CPyTagged_Multiply_, hv]
  · cases hv : h.negate (CPyTagged_AsObject n).value <;> simp [CPyTagged_Negate_, hv]
  · cases hv : h.invert (CPyTagged_AsObject n).value <;> simp [CPyTagged_Invert_, hv]
  · intro op
    by_cases h1 : op = '&'
    · cases hv : h.bitAnd (CPyTagged_AsObject l).value (CPyTagged_AsObject r).value <;>
        simp [GenericBitwiseOp, h1, hv]
    · by_cases h2 : op = '|'
      · cases hv : h.bitOr (CPyTagged_AsObject l).value (CPyTagged_AsObject r).value <;>
          simp [GenericBitwiseOp, h1, h2, hv]
      · cases hv : h.bitXor (CPyTagged_AsObject l).value (CPyTagged_AsObject r).value <;>
          simp [GenericBitwiseOp, h1, h2, hv]

/-- Concrete instance of C9 against the always-failing host: addition is
fatal, floor division returns the sentinel, and addition never returns a
sentinel. -/
theorem claim_C9_witness :
    CPyTagged_Add_ failHost (.short 4) (.short 6) = .fatal ∧
    CPyTagged_FloorDivide_ failHost (.short 4) (.short 6) = .sentinel ∧
    CPyTagged_Add_ failHost (.short 4) (.short 6) ≠ .sentinel := by
  have h := claim_C9_sentinel_policy failHost (.short 4) (.short 6) (.short 4)
  exact ⟨h.1 rfl, h.2.2.2.2.2.2.1 rfl, h.2.2.2.2.2.2.2.2.2.2.1⟩

/-! ### Claim C5: exact overflow-safe size conversion -/

theorem accumDigits_spec (l : List Nat) (x : Nat)
    (hd : ∀ d ∈ l, d < 2 ^ PyLong_SHIFT) (hx : x < 2 ^ 64) :
    accumDigits l x =
      if x * (2 ^ PyLong_SHIFT) ^ l.length + digitsVal l.reverse < 2 ^ 64 then
        some (x * (2 ^ PyLong_SHIFT) ^ l.length + digitsVal l.reverse)
      else none := by
  induction l generalizing x with
  | nil =>
      simp only [accumDigits, List.length_nil, pow_zero, mul_one, List.reverse_nil,
        digitsVal_nil, Nat.add_zero]
      rw [if_pos hx]
  | cons d rest ih =>
      have hdd : d < 2 ^ PyLong_SHIFT := hd d (List.mem_cons_self d rest)
      have hrest : ∀ d' ∈ rest, d' < 2 ^ PyLong_SHIFT := fun d' hmem => hd d' (List.mem_cons_of_mem d hmem)
      have hkey : (x * 2 ^ PyLong_SHIFT + d) * (2 ^ PyLong_SHIFT) ^ rest.length +
          digitsVal rest.reverse =
          x * (2 ^ PyLong_SHIFT) ^ (d :: rest).length + digitsVal (d :: rest).reverse := by
        rw [List.reverse_cons, digitsVal_append, List.length_reverse, List.length_cons,
          digitsVal_cons, digitsVal_nil, PyLong_BASE]
        ring
      by_cases hov : x * 2 ^ PyLong_SHIFT + d < 2 ^ 64
      · -- the shift-and-add step did not wrap: the growth check passes
        have hmod : (x * 2 ^ PyLong_SHIFT + d) % 2 ^ 64 = x * 2 ^ PyLong_SHIFT + d :=
          Nat.mod_eq_of_lt hov
        have hchk : ((x * 2 ^ PyLong_SHIFT + d) % 2 ^ 64) >>> PyLong_SHIFT = x := by
          rw [hmod, Nat.shiftRight_eq_div_pow]
          simp only [PyLong_SHIFT] at hdd ⊢
          omega
        rw [accumDigits, if_neg (not_not_intro hchk), hmod,
          ih (x * 2 ^ PyLong_SHIFT + d) hrest hov, hkey]
      · -- the step wrapped around `size_t`: the growth check fails, and the
        -- true value is ≥ 2^64 as well
        have hge : 2 ^ 64 ≤ x * 2 ^ PyLong_SHIFT + d := le_of_not_lt hov
        have hchk : ((x * 2 ^ PyLong_SHIFT + d) % 2 ^ 64) >>> PyLong_SHIFT ≠ x := by
          rw [Nat.shiftRight_eq_div_pow]
          simp only [PyLong_SHIFT] at hdd hge ⊢
          omega
        rw [accumDigits, if_pos hchk]
        have hpos : 0 < ((2:Nat) ^ PyLong_SHIFT) ^ rest.length := pow_pos (by positivity) _
        have hbig : 2 ^ 64 ≤ x * (2 ^ PyLong_SHIFT) ^ (d :: rest).length +
            digitsVal (d :: rest).reverse := by
          rw [← hkey]
          calc 2 ^ 64 ≤ x * 2 ^ PyLong_SHIFT + d := hge
            _ ≤ (x * 2 ^ PyLong_SHIFT + d) * (2 ^ PyLong_SHIFT) ^ rest.length :=
                Nat.le_mul_of_pos_right _ hpos
            _ ≤ _ := Nat.le_add_right _ _
        rw [if_neg (not_lt.mpr hbig)]

theorem CPY_TAGGED_MAX_toNat : CPY_TAGGED_MAX.toNat = 2 ^ 62 - 1 := by decide

/-- Claim C5: the exact overflow-safe size conversion of a canonical boxed
integer — digit accumulation most-significant first with instant overflow
detection — lands in exactly three outcomes, keyed on the operand's true
magnitude: within the positive inline maximum it returns the value with
overflow 0; the sole negative value whose magnitude is one beyond that
maximum returns `CPY_TAGGED_MIN` with overflow 0; anything larger keeps
the `-1` sentinel and sets the overflow flag to the operand's sign. -/
theorem claim_C5_as_ssize_t (v : PyLongObject) (hwf : v.WF) :
    CPyLong_AsSsize_tAndOverflow_ v =
      if v.value.natAbs ≤ CPY_TAGGED_MAX.toNat then (v.value, 0)
      else if v.negative = true ∧ v.value.natAbs = CPY_TAGGED_ABS_MIN then
        (CPY_TAGGED_MIN, 0)
      else (-1, if v.negative then -1 else 1) := by
  obtain ⟨hd, -, -⟩ := hwf
  have hmagAbs : v.value.natAbs = digitsVal v.digits := by
    rw [PyLongObject.value]
    split <;> simp
  have hacc := accumDigits_spec v.digits.reverse 0
    (fun d hmem => hd d (List.mem_reverse.mp hmem)) (by norm_num)
  rw [List.reverse_reverse, Nat.zero_mul, Nat.zero_add] at hacc
  rw [CPyLong_AsSsize_tAndOverflow_, hacc, hmagAbs]
  by_cases hbig : digitsVal v.digits < 2 ^ 64
  · rw [if_pos hbig]
    cases hneg : v.negative with
    | false =>
        have hval : v.value = (digitsVal v.digits : Int) := by
          rw [PyLongObject.value, hneg]
          simp
        simp only [hneg, hval]
        split <;> simp
    | true =>
        have hval : v.value = -(digitsVal v.digits : Int) := by
          rw [PyLongObject.value, hneg]
          simp
        simp only [hneg, hval]
        split <;> simp
  · rw [if_neg hbig]
    have h1 : ¬(digitsVal v.digits ≤ CPY_TAGGED_MAX.toNat) := by
      rw [CPY_TAGGED_MAX_toNat]
      omega
    have h2 : ¬(v.negative = true ∧ digitsVal v.digits = CPY_TAGGED_ABS_MIN) := by
      rintro ⟨-, habs⟩
      rw [CPY_TAGGED_ABS_MIN] at habs
      omega
    rw [if_neg h1, if_neg h2]

/-- Concrete instance of C5: converting the boxed `5` succeeds exactly. -/
theorem claim_C5_witness : CPyLong_AsSsize_tAndOverflow_ ⟨false, [5]⟩ = (5, 0) := by
  rw [claim_C5_as_ssize_t ⟨false, [5]⟩ ⟨by decide, by decide, by decide⟩]
  decide

/-! ### Digit-array lemmas for the bitwise engine (claims C4 and C8) -/

theorem digitsVal_pos (ds : List Nat) (hne : ds ≠ []) (hlast : ds.getLast? ≠ some 0) :
    0 < digitsVal ds := by
  induction ds with
  | nil => exact absurd rfl hne
  | cons d rest ih =>
      cases rest with
      | nil =>
          have : d ≠ 0 := by
            intro hd
            exact hlast (by simp [hd, List.getLast?])
          simp only [digitsVal_cons, digitsVal_nil, Nat.mul_zero, Nat.add_zero]
          omega
      | cons e t =>
          have hrest : 0 < digitsVal (e :: t) := by
            apply ih (by simp)
            rw [← List.getLast?_cons_cons (a := d)]
            exact hlast
          have hB : 0 < PyLong_BASE := by norm_num [PyLong_BASE, PyLong_SHIFT]
          rw [digitsVal_cons]
          positivity

theorem digitsVal_all_zero (l : List Nat) (h : ∀ x ∈ l, x = 0) : digitsVal l = 0 := by
  induction l with
  | nil => rfl
  | cons d rest ih =>
      rw [digitsVal_cons, h d (List.mem_cons_self d rest),
        ih fun x hx => h x (List.mem_cons_of_mem d hx)]
      ring

theorem normalize_getLast (ds : List Nat) :
    (CPyLong_NormalizeUnsigned ds).getLast? ≠ some 0 := by
  rw [CPyLong_NormalizeUnsigned, List.getLast?_eq_head?_reverse, List.reverse_reverse]
  have h := List.head?_dropWhile_not (fun x => x == 0) ds.reverse
  intro hcontra
  rw [hcontra] at h
  simp at h

theorem normalize_val (ds : List Nat) :
    digitsVal (CPyLong_NormalizeUnsigned ds) = digitsVal ds := by
  have hsplit : ds = CPyLong_NormalizeUnsigned ds ++
      (ds.reverse.takeWhile (· == 0)).reverse := by
    rw [CPyLong_NormalizeUnsigned, ← List.reverse_append,
      List.takeWhile_append_dropWhile, List.reverse_reverse]
  have hz : digitsVal (ds.reverse.takeWhile (· == 0)).reverse = 0 := by
    apply digitsVal_all_zero
    intro x hx
    have := List.mem_takeWhile_imp (List.mem_reverse.mp hx)
    simpa using this
  calc digitsVal (CPyLong_NormalizeUnsigned ds)
      = digitsVal (CPyLong_NormalizeUnsigned ds) +
        PyLong_BASE ^ (CPyLong_NormalizeUnsigned ds).length *
          digitsVal (ds.reverse.takeWhile (· == 0)).reverse := by rw [hz]; ring
    _ = digitsVal ds := by rw [← digitsVal_append, ← hsplit]

theorem normalize_length (ds : List Nat) :
    (CPyLong_NormalizeUnsigned ds).length ≤ ds.length := by
  rw [CPyLong_NormalizeUnsigned, List.length_reverse]
  calc (ds.reverse.dropWhile (· == 0)).length ≤ ds.reverse.length :=
        (List.dropWhile_sublist _).length_le
    _ = ds.length := List.length_reverse ds

theorem normalize_mem {ds : List Nat} {x : Nat} (h : x ∈ CPyLong_NormalizeUnsigned ds) :
    x ∈ ds := by
  rw [CPyLong_NormalizeUnsigned, List.mem_reverse] at h
  exact List.mem_reverse.mp (List.dropWhile_subset _ h)

theorem natToDigits_eq_of_canonical (ds : List Nat) (hb : ∀ d ∈ ds, d < PyLong_BASE)
    (hlast : ds.getLast? ≠ some 0) : natToDigits (digitsVal ds) = ds := by
  induction ds with
  | nil => rw [digitsVal_nil, natToDigits]; simp
  | cons d rest ih =>
      have hd : d < PyLong_BASE := hb d (List.mem_cons_self d rest)
      cases rest with
      | nil =>
          have hdne : d ≠ 0 := by
            intro h0
            exact hlast (by simp [h0, List.getLast?])
          have hdv : digitsVal [d] = d := by simp [digitsVal]
          rw [hdv, natToDigits]
          have hmod : d % PyLong_BASE = d := Nat.mod_eq_of_lt hd
          have hdiv : d / PyLong_BASE = 0 := Nat.div_eq_of_lt hd
          simp only [hdne, dite_false, hmod, hdiv]
          rw [natToDigits]
          simp
      | cons e t =>
          have hlast' : (e :: t).getLast? ≠ some 0 := by
            rw [← List.getLast?_cons_cons (a := d)]
            exact hlast
          have hpos : 0 < digitsVal (e :: t) :=
            digitsVal_pos _ (by simp) hlast'
          have hih := ih (fun x hx => hb x (List.mem_cons_of_mem d hx)) hlast'
          rw [digitsVal_cons, natToDigits]
          have hBpos : 0 < PyLong_BASE := by norm_num [PyLong_BASE, PyLong_SHIFT]
          have hne : d + PyLong_BASE * digitsVal (e :: t) ≠ 0 := by positivity
          have hmod : (d + PyLong_BASE * digitsVal (e :: t)) % PyLong_BASE = d := by
            rw [Nat.add_mul_mod_self_left]
            exact Nat.mod_eq_of_lt hd
          have hdiv : (d + PyLong_BASE * digitsVal (e :: t)) / PyLong_BASE =
              digitsVal (e :: t) := by
            rw [Nat.add_mul_div_left _ _ hBpos, Nat.div_eq_of_lt hd, Nat.zero_add]
          simp only [hne, dite_false, hmod, hdiv, hih]

theorem shortToDigits_spec (n : Nat) (hn : n < 2 ^ 63) :
    digitsVal (shortToDigits n) = n ∧ (∀ d ∈ shortToDigits n, d < PyLong_BASE) ∧
      (shortToDigits n).length ≤ 3 := by
  have hmask : ∀ m : Nat, m &&& 1073741823 = m % 1073741824 := fun m => by
    have h := Nat.and_pow_two_sub_one_eq_mod m 30
    norm_num at h
    exact h
  have hshift : ∀ m : Nat, m >>> PyLong_SHIFT = m / 1073741824 := fun m => by
    rw [Nat.shiftRight_eq_div_pow, PyLong_SHIFT]
  have hMASK : PyLong_MASK = 1073741823 := by norm_num [PyLong_MASK, PyLong_SHIFT]
  have hBASE : PyLong_BASE = 1073741824 := by norm_num [PyLong_BASE, PyLong_SHIFT]
  have hn2 : n < 9223372036854775808 := by
    have : (2:Nat) ^ 63 = 9223372036854775808 := by norm_num
    omega
  simp only [shortToDigits, hmask, hshift, hMASK, hBASE, digitsVal_cons, digitsVal_nil]
  by_cases h1 : n > 1073741823
  · rw [if_pos h1]
    by_cases h2 : n / 1073741824 > 1073741823
    · rw [if_pos h2]
      refine ⟨by simp only [digitsVal_cons, digitsVal_nil, hBASE]; omega, ?_, by simp⟩
      intro d hd
      simp only [List.mem_cons, List.not_mem_nil, or_false] at hd
      rcases hd with rfl | rfl | rfl <;> omega
    · rw [if_neg h2]
      refine ⟨by simp only [digitsVal_cons, digitsVal_nil, hBASE]; omega, ?_, by simp⟩
      intro d hd
      simp only [List.mem_cons, List.not_mem_nil, or_false] at hd
      rcases hd with rfl | rfl <;> omega
  · rw [if_neg h1]
    refine ⟨by simp only [digitsVal_cons, digitsVal_nil, hBASE]; omega, ?_, by simp⟩
    intro d hd
    simp only [List.mem_cons, List.not_mem_nil, or_false] at hd
    rcases hd with rfl <;> omega


theorem land_digit_decomp {s d e : Nat} (x y : Nat) (hd : d < 2 ^ s) (he : e < 2 ^ s) :
    (d + 2 ^ s * x) &&& (e + 2 ^ s * y) = (d &&& e) + 2 ^ s * (x &&& y) := by
  rw [Nat.add_comm d, Nat.add_comm e, Nat.add_comm (d &&& e)]
  apply Nat.eq_of_testBit_eq
  intro i
  rw [Nat.testBit_land, Nat.testBit_mul_pow_two_add _ hd,
    Nat.testBit_mul_pow_two_add _ he,
    Nat.testBit_mul_pow_two_add _ (Nat.and_lt_two_pow d he)]
  by_cases hi : i < s
  · simp [hi, Nat.testBit_land]
  · simp [hi, Nat.testBit_land]

theorem lor_digit_decomp {s d e : Nat} (x y : Nat) (hd : d < 2 ^ s) (he : e < 2 ^ s) :
    (d + 2 ^ s * x) ||| (e + 2 ^ s * y) = (d ||| e) + 2 ^ s * (x ||| y) := by
  rw [Nat.add_comm d, Nat.add_comm e, Nat.add_comm (d ||| e)]
  apply Nat.eq_of_testBit_eq
  intro i
  rw [Nat.testBit_lor, Nat.testBit_mul_pow_two_add _ hd,
    Nat.testBit_mul_pow_two_add _ he,
    Nat.testBit_mul_pow_two_add _ (Nat.or_lt_two_pow hd he)]
  by_cases hi : i < s
  · simp [hi, Nat.testBit_lor]
  · simp [hi, Nat.testBit_lor]

theorem xor_digit_decomp {s d e : Nat} (x y : Nat) (hd : d < 2 ^ s) (he : e < 2 ^ s) :
    (d + 2 ^ s * x) ^^^ (e + 2 ^ s * y) = (d ^^^ e) + 2 ^ s * (x ^^^ y) := by
  rw [Nat.add_comm d, Nat.add_comm e, Nat.add_comm (d ^^^ e)]
  apply Nat.eq_of_testBit_eq
  intro i
  rw [Nat.testBit_xor, Nat.testBit_mul_pow_two_add _ hd,
    Nat.testBit_mul_pow_two_add _ he,
    Nat.testBit_mul_pow_two_add _ (Nat.xor_lt_two_pow hd he)]
  by_cases hi : i < s
  · simp [hi, Nat.testBit_xor]
  · simp [hi, Nat.testBit_xor]

theorem zip_land_val (ds : List Nat) :
    ∀ es : List Nat, (∀ d ∈ ds, d < PyLong_BASE) → (∀ e ∈ es, e < PyLong_BASE) →
      digitsVal (List.zipWith (fun a b => a &&& b) ds es) = digitsVal ds &&& digitsVal es := by
  induction ds with
  | nil =>
      intro es _ _
      simp [digitsVal, Nat.zero_and]
  | cons d dt ih =>
      intro es hds hes
      cases es with
      | nil => simp [digitsVal, Nat.and_zero]
      | cons e et =>
          have hd : d < 2 ^ PyLong_SHIFT := hds d (List.mem_cons_self d dt)
          have he : e < 2 ^ PyLong_SHIFT := hes e (List.mem_cons_self e et)
          simp only [List.zipWith_cons_cons, digitsVal_cons]
          rw [ih et (fun x hx => hds x (List.mem_cons_of_mem d hx))
            (fun x hx => hes x (List.mem_cons_of_mem e hx))]
          exact (land_digit_decomp _ _ hd he).symm

theorem zip_lor_val (ds : List Nat) :
    ∀ es : List Nat, ds.length ≤ es.length →
      (∀ d ∈ ds, d < PyLong_BASE) → (∀ e ∈ es, e < PyLong_BASE) →
      digitsVal (List.zipWith (fun a b => a ||| b) ds es ++ es.drop ds.length) =
        digitsVal ds ||| digitsVal es := by
  induction ds with
  | nil =>
      intro es _ _ _
      simp [digitsVal, Nat.zero_or]
  | cons d dt ih =>
      intro es hlen hds hes
      cases es with
      | nil => simp at hlen
      | cons e et =>
          have hd : d < 2 ^ PyLong_SHIFT := hds d (List.mem_cons_self d dt)
          have he : e < 2 ^ PyLong_SHIFT := hes e (List.mem_cons_self e et)
          simp only [List.zipWith_cons_cons, List.length_cons, List.drop_succ_cons,
            List.cons_append, digitsVal_cons]
          rw [ih et (by simpa using hlen) (fun x hx => hds x (List.mem_cons_of_mem d hx))
            (fun x hx => hes x (List.mem_cons_of_mem e hx))]
          exact (lor_digit_decomp _ _ hd he).symm

theorem zip_xor_val (ds : List Nat) :
    ∀ es : List Nat, ds.length ≤ es.length →
      (∀ d ∈ ds, d < PyLong_BASE) → (∀ e ∈ es, e < PyLong_BASE) →
      digitsVal (List.zipWith (fun a b => a ^^^ b) ds es ++ es.drop ds.length) =
        digitsVal ds ^^^ digitsVal es := by
  induction ds with
  | nil =>
      intro es _ _ _
      simp [digitsVal, Nat.zero_xor]
  | cons d dt ih =>
      intro es hlen hds hes
      cases es with
      | nil => simp at hlen
      | cons e et =>
          have hd : d < 2 ^ PyLong_SHIFT := hds d (List.mem_cons_self d dt)
          have he : e < 2 ^ PyLong_SHIFT := hes e (List.mem_cons_self e et)
          simp only [List.zipWith_cons_cons, List.length_cons, List.drop_succ_cons,
            List.cons_append, digitsVal_cons]
          rw [ih et (by simpa using hlen) (fun x hx => hds x (List.mem_cons_of_mem d hx))
            (fun x hx => hes x (List.mem_cons_of_mem e hx))]
          exact (xor_digit_decomp _ _ hd he).symm

theorem zipWith_mem_bound {f : Nat → Nat → Nat}
    (hf : ∀ a b, a < PyLong_BASE → b < PyLong_BASE → f a b < PyLong_BASE) :
    ∀ (ds es : List Nat), (∀ d ∈ ds, d < PyLong_BASE) → (∀ e ∈ es, e < PyLong_BASE) →
      ∀ x ∈ List.zipWith f ds es, x < PyLong_BASE := by
  intro ds
  induction ds with
  | nil => intro es _ _ x hx; simp at hx
  | cons d dt ih =>
      intro es hds hes x hx
      cases es with
      | nil => simp at hx
      | cons e et =>
          simp only [List.zipWith_cons_cons, List.mem_cons] at hx
          rcases hx with rfl | hx
          · exact hf d e (hds d (List.mem_cons_self d dt)) (hes e (List.mem_cons_self e et))
          · exact ih et (fun y hy => hds y (List.mem_cons_of_mem d hy))
              (fun y hy => hes y (List.mem_cons_of_mem e hy)) x hx

theorem bitwiseDigitLoop_bound (op : Char) (ds es : List Nat)
    (hds : ∀ d ∈ ds, d < PyLong_BASE) (hes : ∀ e ∈ es, e < PyLong_BASE) :
    ∀ x ∈ bitwiseDigitLoop op ds es, x < PyLong_BASE := by
  intro x hx
  rw [bitwiseDigitLoop] at hx
  split at hx
  · exact zipWith_mem_bound (fun a b _ hb => Nat.and_lt_two_pow a hb) ds es hds hes x hx
  · split at hx
    · rcases List.mem_append.mp hx with hmem | hmem
      · exact zipWith_mem_bound (fun a b ha hb => Nat.or_lt_two_pow ha hb) ds es hds hes x hmem
      · exact hes x (List.mem_of_mem_drop hmem)
    · rcases List.mem_append.mp hx with hmem | hmem
      · exact zipWith_mem_bound (fun a b ha hb => Nat.xor_lt_two_pow ha hb) ds es hds hes x hmem
      · exact hes x (List.mem_of_mem_drop hmem)

theorem shortAsSsize_eq_div (w : Int) : CPyTagged_ShortAsSsize_t w = w / 2 := by
  rw [CPyTagged_ShortAsSsize_t, Int.shiftRight_eq_div_pow]
  norm_num

theorem shortToDigits_length (n : Nat) : (shortToDigits n).length ≤ 3 := by
  simp only [shortToDigits]
  split
  · split <;> simp
  · simp

theorem int_land_coe (m n : Nat) : Int.land (m : Int) (n : Int) = ((m &&& n : Nat) : Int) := rfl

theorem int_lor_coe (m n : Nat) : Int.lor (m : Int) (n : Int) = ((m ||| n : Nat) : Int) := rfl

theorem int_xor_coe (m n : Nat) : Int.xor (m : Int) (n : Int) = ((m ^^^ n : Nat) : Int) := rfl

theorem getIntDigits_spec (t : CPyTagged) (hwf : t.WF) (hnn : 0 ≤ t.val) :
    (GetIntDigits t).1 = ((GetIntDigits t).2.length : Int) ∧
    digitsVal (GetIntDigits t).2 = t.val.toNat ∧
    ∀ d ∈ (GetIntDigits t).2, d < PyLong_BASE := by
  cases t with
  | short w =>
      obtain ⟨heven, hlo, hhi⟩ := hwf
      have hnn' : 0 ≤ CPyTagged_ShortAsSsize_t w := hnn
      have habs : (CPyTagged_ShortAsSsize_t w).natAbs < 2 ^ 63 := by
        rw [shortAsSsize_eq_div]
        rw [SSIZE_MIN] at hlo
        rw [SSIZE_MAX] at hhi
        omega
      obtain ⟨hval, hbound, -⟩ := shortToDigits_spec (CPyTagged_ShortAsSsize_t w).natAbs habs
      have hneg : ¬(CPyTagged_ShortAsSsize_t w < 0) := not_lt.mpr hnn'
      simp only [GetIntDigits, if_neg hneg]
      refine ⟨trivial, ?_, hbound⟩
      rw [hval]
      show (CPyTagged_ShortAsSsize_t w).natAbs = (CPyTagged.short w).val.toNat
      have : (CPyTagged.short w).val = CPyTagged_ShortAsSsize_t w := rfl
      omega
  | long o =>
      obtain ⟨hbound, hlast, hnegne⟩ := hwf
      have hnegf : o.negative = false := by
        cases hneg : o.negative with
        | false => rfl
        | true =>
            have hpos : 0 < digitsVal o.digits :=
              digitsVal_pos _ (hnegne hneg) hlast
            have hval : (CPyTagged.long o).val = -(digitsVal o.digits : Int) := by
              show o.value = _
              rw [PyLongObject.value, hneg]
              simp
            rw [hval] at hnn
            omega
      simp only [GetIntDigits, hnegf, Bool.false_eq_true, if_false]
      refine ⟨trivial, ?_, hbound⟩
      have hval : (CPyTagged.long o).val = (digitsVal o.digits : Int) := by
        show o.value = _
        rw [PyLongObject.value, hnegf]
        simp
      rw [hval]
      omega

theorem bitwiseLongOp_nonneg_path (h : Host) (a b : CPyTagged) (op : Char)
    (hna : ¬((GetIntDigits a).1 < 0)) (hnb : ¬((GetIntDigits b).1 < 0)) :
    CPyTagged_BitwiseLongOp_ h a b op =
      .val (CPyTagged_StealFromObject ⟨false, CPyLong_NormalizeUnsigned
        (bitwiseDigitLoop op
          (if (GetIntDigits a).1 > (GetIntDigits b).1 then (GetIntDigits b).2
           else (GetIntDigits a).2)
          (if (GetIntDigits a).1 > (GetIntDigits b).1 then (GetIntDigits a).2
           else (GetIntDigits b).2))⟩) := by
  simp only [CPyTagged_BitwiseLongOp_]
  rw [if_neg (not_or.mpr ⟨hna, hnb⟩)]

theorem bitwiseCore_val (op : Char) (ad bd : List Nat) (hlen : ad.length ≤ bd.length)
    (hbad : ∀ d ∈ ad, d < PyLong_BASE) (hbbd : ∀ e ∈ bd, e < PyLong_BASE) :
    digitsVal (bitwiseDigitLoop op ad bd) =
      if op = '&' then digitsVal ad &&& digitsVal bd
      else if op = '|' then digitsVal ad ||| digitsVal bd
      else digitsVal ad ^^^ digitsVal bd := by
  by_cases h1 : op = '&'
  · rw [bitwiseDigitLoop, if_pos h1, if_pos h1]
    exact zip_land_val ad bd hbad hbbd
  · by_cases h2 : op = '|'
    · rw [bitwiseDigitLoop, if_neg h1, if_pos h2, if_neg h1, if_pos h2]
      exact zip_lor_val ad bd hlen hbad hbbd
    · rw [bitwiseDigitLoop, if_neg h1, if_neg h2, if_neg h1, if_neg h2]
      exact zip_xor_val ad bd hlen hbad hbbd

theorem bitwiseResult_eq_generic (h : Host) (a b : CPyTagged) (op : Char)
    (hop : op = '&' ∨ op = '|' ∨ op = '^') (ad bd : List Nat)
    (hlen : ad.length ≤ bd.length)
    (hbad : ∀ d ∈ ad, d < PyLong_BASE) (hbbd : ∀ e ∈ bd, e < PyLong_BASE)
    (hvals : (digitsVal ad = a.val.toNat ∧ digitsVal bd = b.val.toNat) ∨
             (digitsVal ad = b.val.toNat ∧ digitsVal bd = a.val.toNat))
    (ha : 0 ≤ a.val) (hb : 0 ≤ b.val)
    (hres : CPyTagged_BitwiseLongOp_ h a b op =
      .val (CPyTagged_StealFromObject
        ⟨false, CPyLong_NormalizeUnsigned (bitwiseDigitLoop op ad bd)⟩)) :
    CPyTagged_BitwiseLongOp_ h a b op = GenericBitwiseOp pyHost a b op := by
  have hcore := bitwiseCore_val op ad bd hlen hbad hbbd
  have hbloop := bitwiseDigitLoop_bound op ad bd hbad hbbd
  -- the normalized result digit sequence is canonical with the combined value
  have hnormb : ∀ x ∈ CPyLong_NormalizeUnsigned (bitwiseDigitLoop op ad bd),
      x < PyLong_BASE := fun x hx => hbloop x (normalize_mem hx)
  have hnorml := normalize_getLast (bitwiseDigitLoop op ad bd)
  have hnormv := normalize_val (bitwiseDigitLoop op ad bd)
  have hcanon := natToDigits_eq_of_canonical _ hnormb hnorml
  have hobj : ∀ m : Nat,
      digitsVal (CPyLong_NormalizeUnsigned (bitwiseDigitLoop op ad bd)) = m →
      (⟨false, CPyLong_NormalizeUnsigned (bitwiseDigitLoop op ad bd)⟩ : PyLongObject) =
        intToPyLong (m : Int) := by
    intro m hm
    rw [intToPyLong]
    have h1 : (decide ((m : Int) < 0)) = false := by simp
    have h2 : (m : Int).natAbs = m := Int.natAbs_ofNat m
    rw [h1, h2, ← hm, hcanon]
  have hav : a.val = (a.val.toNat : Int) := (Int.toNat_of_nonneg ha).symm
  have hbv : b.val = (b.val.toNat : Int) := (Int.toNat_of_nonneg hb).symm
  rcases hop with rfl | rfl | rfl
  · have hgen : GenericBitwiseOp pyHost a b '&' =
        .val (CPyTagged_StealFromObject (intToPyLong
          (Int.land (CPyTagged_AsObject a).value (CPyTagged_AsObject b).value))) := by rfl
    rw [asObject_value, asObject_value] at hgen
    have hm : digitsVal (CPyLong_NormalizeUnsigned (bitwiseDigitLoop '&' ad bd)) =
        a.val.toNat &&& b.val.toNat := by
      rw [hnormv, hcore, if_pos rfl]
      rcases hvals with ⟨h1, h2⟩ | ⟨h1, h2⟩
      · rw [h1, h2]
      · rw [h1, h2, Nat.land_comm]
    rw [hres, hgen, hobj _ hm, hav, hbv, int_land_coe]
    rfl
  · have hgen : GenericBitwiseOp pyHost a b '|' =
        .val (CPyTagged_StealFromObject (intToPyLong
          (Int.lor (CPyTagged_AsObject a).value (CPyTagged_AsObject b).value))) := by rfl
    rw [asObject_value, asObject_value] at hgen
    have hm : digitsVal (CPyLong_NormalizeUnsigned (bitwiseDigitLoop '|' ad bd)) =
        a.val.toNat ||| b.val.toNat := by
      rw [hnormv, hcore, if_neg (by decide : ¬('|' = '&')), if_pos rfl]
      rcases hvals with ⟨h1, h2⟩ | ⟨h1, h2⟩
      · rw [h1, h2]
      · rw [h1, h2, Nat.lor_comm]
    rw [hres, hgen, hobj _ hm, hav, hbv, int_lor_coe]
    rfl
  · have hgen : GenericBitwiseOp pyHost a b '^' =
        .val (CPyTagged_StealFromObject (intToPyLong
          (Int.xor (CPyTagged_AsObject a).value (CPyTagged_AsObject b).value))) := by rfl
    rw [asObject_value, asObject_value] at hgen
    have hm : digitsVal (CPyLong_NormalizeUnsigned (bitwiseDigitLoop '^' ad bd)) =
        a.val.toNat ^^^ b.val.toNat := by
      rw [hnormv, hcore, if_neg (by decide : ¬('^' = '&')), if_neg (by decide : ¬('^' = '|'))]
      rcases hvals with ⟨h1, h2⟩ | ⟨h1, h2⟩
      · rw [h1, h2]
      · rw [h1, h2, Nat.xor_comm]
    rw [hres, hgen, hobj _ hm, hav, hbv, int_xor_coe]
    rfl

/-- Claim C4: for non-negative operands (at least one boxed), the
digit-level bitwise engine computes results numerically equal to the
generic boxed delegate with Python semantics — stated as outright equality
of the returned tagged results; moreover an inline operand decomposes into
at most three digits, and for AND the (pre-encoding) result digit sequence
is bounded by the shorter operand's digit count. -/
theorem claim_C4_bitwise_equiv (h : Host) (a b : CPyTagged) (op : Char)
    (hwa : a.WF) (hwb : b.WF) (ha : 0 ≤ a.val) (hb : 0 ≤ b.val)
    (hop : op = '&' ∨ op = '|' ∨ op = '^')
    (hlong : CPyTagged_CheckLong a = true ∨ CPyTagged_CheckLong b = true) :
    CPyTagged_BitwiseLongOp_ h a b op = GenericBitwiseOp pyHost a b op ∧
    (∀ w : Int, (GetIntDigits (CPyTagged.short w)).2.length ≤ 3) ∧
    (op = '&' → ∃ ds,
      ds.length ≤ min (GetIntDigits a).2.length (GetIntDigits b).2.length ∧
      CPyTagged_BitwiseLongOp_ h a b op = .val (CPyTagged_StealFromObject ⟨false, ds⟩)) := by
  obtain ⟨hsa, hva, hba⟩ := getIntDigits_spec a hwa ha
  obtain ⟨hsb, hvb, hbb⟩ := getIntDigits_spec b hwb hb
  have hna : ¬((GetIntDigits a).1 < 0) := by
    rw [hsa]
    exact not_lt.mpr (Int.natCast_nonneg _)
  have hnb : ¬((GetIntDigits b).1 < 0) := by
    rw [hsb]
    exact not_lt.mpr (Int.natCast_nonneg _)
  have hpath := bitwiseLongOp_nonneg_path h a b op hna hnb
  by_cases hsw : (GetIntDigits a).1 > (GetIntDigits b).1
  · rw [if_pos hsw, if_pos hsw] at hpath
    have hlen : (GetIntDigits b).2.length ≤ (GetIntDigits a).2.length := by
      rw [hsa, hsb] at hsw
      exact_mod_cast le_of_lt hsw
    refine ⟨bitwiseResult_eq_generic h a b op hop _ _ hlen hbb hba
        (Or.inr ⟨hvb, hva⟩) ha hb hpath,
      fun w => by simp only [GetIntDigits]; exact shortToDigits_length _, ?_⟩
    rintro rfl
    refine ⟨CPyLong_NormalizeUnsigned
      (bitwiseDigitLoop '&' (GetIntDigits b).2 (GetIntDigits a).2), ?_, hpath⟩
    have h1 := normalize_length (bitwiseDigitLoop '&' (GetIntDigits b).2 (GetIntDigits a).2)
    have h2 : (bitwiseDigitLoop '&' (GetIntDigits b).2 (GetIntDigits a).2).length =
        min (GetIntDigits b).2.length (GetIntDigits a).2.length := by
      rw [bitwiseDigitLoop, if_pos rfl, List.length_zipWith]
    omega
  · rw [if_neg hsw, if_neg hsw] at hpath
    have hlen : (GetIntDigits a).2.length ≤ (GetIntDigits b).2.length := by
      rw [hsa, hsb] at hsw
      exact_mod_cast not_lt.mp hsw
    refine ⟨bitwiseResult_eq_generic h a b op hop _ _ hlen hba hbb
        (Or.inl ⟨hva, hvb⟩) ha hb hpath,
      fun w => by simp only [GetIntDigits]; exact shortToDigits_length _, ?_⟩
    rintro rfl
    refine ⟨CPyLong_NormalizeUnsigned
      (bitwiseDigitLoop '&' (GetIntDigits a).2 (GetIntDigits b).2), ?_, hpath⟩
    have h1 := normalize_length (bitwiseDigitLoop '&' (GetIntDigits a).2 (GetIntDigits b).2)
    have h2 : (bitwiseDigitLoop '&' (GetIntDigits a).2 (GetIntDigits b).2).length =
        min (GetIntDigits a).2.length (GetIntDigits b).2.length := by
      rw [bitwiseDigitLoop, if_pos rfl, List.length_zipWith]
    omega

/-- Concrete instance of C4: boxed `5*2^30 + 3` OR inline `5` agrees with
the generic delegate; inline decomposition stays within three digits; AND
results stay within the shorter digit count. -/
theorem claim_C4_witness :
    CPyTagged_BitwiseLongOp_ pyHost (.long ⟨false, [3, 5]⟩) (.short 10) '|' =
      GenericBitwiseOp pyHost (.long ⟨false, [3, 5]⟩) (.short 10) '|' ∧
    (∀ w : Int, (GetIntDigits (CPyTagged.short w)).2.length ≤ 3) ∧
    ('|' = '&' → ∃ ds,
      ds.length ≤ min (GetIntDigits (CPyTagged.long ⟨false, [3, 5]⟩)).2.length
        (GetIntDigits (CPyTagged.short 10)).2.length ∧
      CPyTagged_BitwiseLongOp_ pyHost (.long ⟨false, [3, 5]⟩) (.short 10) '|' =
        .val (CPyTagged_StealFromObject ⟨false, ds⟩)) :=
  claim_C4_bitwise_equiv pyHost (.long ⟨false, [3, 5]⟩) (.short 10) '|'
    ⟨by decide, by decide, by decide⟩ ⟨by decide, by decide, by decide⟩
    (by decide) (by decide) (Or.inr (Or.inl rfl)) (Or.inl rfl)

/-- Claim C8: on its digit-array fast path the bitwise engine always hands
`CPyTagged_StealFromObject` a non-negative object whose digit sequence has
been normalized — no trailing zero digit remains (the zero value keeps an
empty digit sequence) — and re-encoding to inline form happens exactly
when the value fits the inline range. -/
theorem claim_C8_normalized_result (h : Host) (a b : CPyTagged) (op : Char)
    (hwa : a.WF) (hwb : b.WF) (ha : 0 ≤ a.val) (hb : 0 ≤ b.val) :
    (∃ ds, ds.getLast? ≠ some 0 ∧
      CPyTagged_BitwiseLongOp_ h a b op = .val (CPyTagged_StealFromObject ⟨false, ds⟩)) ∧
    (∀ o : PyLongObject, CPY_TAGGED_MIN ≤ o.value → o.value ≤ CPY_TAGGED_MAX →
      CPyTagged_StealFromObject o = .short (o.value * 2)) := by
  constructor
  · obtain ⟨hsa, -, -⟩ := getIntDigits_spec a hwa ha
    obtain ⟨hsb, -, -⟩ := getIntDigits_spec b hwb hb
    have hna : ¬((GetIntDigits a).1 < 0) := by
      rw [hsa]
      exact not_lt.mpr (Int.natCast_nonneg _)
    have hnb : ¬((GetIntDigits b).1 < 0) := by
      rw [hsb]
      exact not_lt.mpr (Int.natCast_nonneg _)
    exact ⟨_, normalize_getLast _, bitwiseLongOp_nonneg_path h a b op hna hnb⟩
  · intro o h1 h2
    rw [CPyTagged_StealFromObject, if_pos ⟨h1, h2⟩]

/-- Concrete instance of C8: the AND of boxed `5*2^30 + 3` and inline `5`
yields a normalized digit sequence, re-encoded inline. -/
theorem claim_C8_witness :
    (∃ ds, ds.getLast? ≠ some 0 ∧
      CPyTagged_BitwiseLongOp_ pyHost (.long ⟨false, [3, 5]⟩) (.short 10) '&' =
        .val (CPyTagged_StealFromObject ⟨false, ds⟩)) ∧
    (∀ o : PyLongObject, CPY_TAGGED_MIN ≤ o.value → o.value ≤ CPY_TAGGED_MAX →
      CPyTagged_StealFromObject o = .short (o.value * 2)) :=
  claim_C8_normalized_result pyHost (.long ⟨false, [3, 5]⟩) (.short 10) '&'
    ⟨by decide, by decide, by decide⟩ ⟨by decide, by decide, by decide⟩
    (by decide) (by decide)

end TaggedInt
